import Mathlib

/-!
Verification of the single-page chat client (src/App.tsx).

The embedding models, over `List Char` for JS strings and `ℚ` for JS numbers:
- the `Typewriter` component's reset effect and per-frame animation step;
- `sanitizeResourceName` and the unique-resource-name construction of
  `handleFileSelect`;
- the per-chunk smoothed-delay estimator of `handleSendMessage`;
- the grounding-chunk accumulation into the citation `sources` list;
- the sequential per-file upload loop of `handleFileSelect`, its per-file
  success/failure bookkeeping, the batch-level catch handler, and the
  post-batch message/flag logic.

JS `Map` objects keyed by file name are modelled as functions
`List Char → Option UploadedFile`; `await`-sequenced loops become folds.
-/

set_option maxHeartbeats 1000000

/-! ## String helpers (JS `String.prototype` operations on `List Char`) -/

/-- PrefOf p l: p is an initial segment of l. -/
def PrefOf (p l : List Char) : Prop := ∃ n, p = l.take n

/-- JS `s.startsWith(p)`, computed character by character. -/
def startsWithChars : List Char → List Char → Bool
  | _, [] => true
  | [], _ :: _ => false
  | c :: cs, q :: qs => q == c && startsWithChars cs qs

/-- JS `s.includes(sub)`: some suffix of s starts with sub. -/
def includesSub : List Char → List Char → Bool
  | [], sub => startsWithChars [] sub
  | c :: t, sub => startsWithChars (c :: t) sub || includesSub t sub

theorem startsWithChars_iff (s p : List Char) :
    startsWithChars s p = true ↔ ∃ n, p = s.take n := by
  induction s generalizing p with
  | nil =>
    cases p with
    | nil => simp [startsWithChars]
    | cons q qs => simp [startsWithChars]
  | cons c cs ih =>
    cases p with
    | nil =>
      simp only [startsWithChars, true_iff]
      exact ⟨0, rfl⟩
    | cons q qs =>
      simp only [startsWithChars, Bool.and_eq_true, beq_iff_eq, ih]
      constructor
      · rintro ⟨rfl, m, rfl⟩
        exact ⟨m + 1, by simp⟩
      · rintro ⟨n, hn⟩
        cases n with
        | zero => simp at hn
        | succ m =>
          simp only [List.take_succ_cons, List.cons.injEq] at hn
          exact ⟨hn.1, m, hn.2⟩

theorem PrefOf.length_le {p l : List Char} (h : PrefOf p l) : p.length ≤ l.length := by
  obtain ⟨n, rfl⟩ := h
  simp [List.length_take]

theorem PrefOf.eq_of_length_le {p l : List Char} (h : PrefOf p l)
    (hl : l.length ≤ p.length) : p = l := by
  obtain ⟨n, rfl⟩ := h
  have : l.length ≤ n := by
    simp only [List.length_take] at hl
    omega
  simp [List.take_of_length_le this]

/-! ## Typewriter (src/App.tsx lines 13-71)

One animation frame carries `displayedText` (React state) and
`timeAccumulatorRef`; `textIndexRef` is re-synced to `displayedText.length`
at the start of every effect run (line 29), so it is not separate state.
The frame's `deltaTime` (line 36) is passed in directly. -/

structure TypewriterState where
  displayedText : List Char
  timeAccumulator : ℚ

/-- Line 40: `Math.max(0.1, charDelay)`. -/
def effectiveDelay (charDelay : ℚ) : ℚ := max (1 / 10) charDelay

/-- Lines 31-55: one call of `animate`, given the frame's elapsed time. -/
def frameStep (textToType : List Char) (charDelay deltaTime : ℚ)
    (s : TypewriterState) : TypewriterState :=
  let acc := s.timeAccumulator + deltaTime
  let eff := effectiveDelay charDelay
  let charsToRender : ℤ := ⌊acc / eff⌋
  if 0 < charsToRender then
    let textIndex := s.displayedText.length
    let newIndex : ℕ := min (textIndex + charsToRender.toNat) textToType.length
    if textIndex < newIndex then
      TypewriterState.mk (textToType.take newIndex) (acc - charsToRender * eff)
    else
      TypewriterState.mk s.displayedText acc
  else
    TypewriterState.mk s.displayedText acc

/-- Lines 21-26: the reset effect — if the target no longer starts with the
displayed text, display restarts from empty. -/
def resetCheck (textToType : List Char) (s : TypewriterState) : TypewriterState :=
  if startsWithChars textToType s.displayedText then s
  else TypewriterState.mk [] s.timeAccumulator

/-- One component frame: the reset effect, then (line 57: only while there is
text left to reveal) one `animate` call. -/
def componentStep (textToType : List Char) (charDelay deltaTime : ℚ)
    (s : TypewriterState) : TypewriterState :=
  let s1 := resetCheck textToType s
  if s1.displayedText.length < textToType.length then
    frameStep textToType charDelay deltaTime s1
  else s1

/-! ## sanitizeResourceName (src/App.tsx lines 73-79) -/

/-- Character class `[a-z0-9-]` of the regex on line 76. -/
def isAllowedChar (c : Char) : Bool :=
  decide (('a' ≤ c ∧ c ≤ 'z') ∨ ('0' ≤ c ∧ c ≤ '9') ∨ c = '-')

/-- Line 76: `.replace(/[^a-z0-9-]/g, '-')` — each disallowed character
becomes a hyphen. -/
def replaceDisallowed (cs : List Char) : List Char :=
  cs.map fun c => if isAllowedChar c then c else '-'

/-- Line 77: replacing every maximal run of hyphens (regex `-+`, global) by a
single hyphen: adjacent duplicate hyphens are dropped. -/
def collapseHyphens (cs : List Char) : List Char :=
  cs.foldr (fun c acc => if c = '-' ∧ acc.head? = some '-' then acc else c :: acc) []

/-- First alternative of line 78's `.replace(/^-|-$/g, '')`: drop one leading
hyphen. -/
def dropLeadingHyphen (cs : List Char) : List Char :=
  if cs.head? = some '-' then cs.tail else cs

/-- Second alternative of line 78's `.replace(/^-|-$/g, '')`: drop one
trailing hyphen. -/
def dropTrailingHyphen (cs : List Char) : List Char :=
  if cs.getLast? = some '-' then cs.dropLast else cs

/-- Lines 73-79: `name.toLowerCase().replace(...).replace(...).replace(...)`.
`toLowerCase` is modelled on its ASCII behaviour (`Char.toLower`); the next
`replace` turns every non-`[a-z0-9-]` character into `-` regardless. -/
def sanitizeResourceName (name : List Char) : List Char :=
  dropTrailingHyphen (dropLeadingHyphen
    (collapseHyphens (replaceDisallowed (name.map Char.toLower))))

/-! ## Unique upload resource name (src/App.tsx lines 234-241) -/

/-- Lines 234-241: fallback name, 40-character budget, truncation and
assembly `${truncated}-${timestamp}-${randomSuffix}`. JS
`substring(0, n)` clamps a negative n to 0, hence `Int.toNat`. -/
def uniqueResourceName (fileName timestamp randomSuffix : List Char) : List Char :=
  let resourceName :=
    if sanitizeResourceName fileName = [] then "file".data
    else sanitizeResourceName fileName
  let maxNameLength : ℤ :=
    40 - (timestamp.length : ℤ) - (randomSuffix.length : ℤ) - 2
  let truncatedResourceName := resourceName.take maxNameLength.toNat
  truncatedResourceName ++ '-' :: timestamp ++ '-' :: randomSuffix

/-! ## Streaming delay estimator (src/App.tsx lines 417-419, 454-461, 472) -/

/-- Line 419: `const smoothingFactor = 0.4`. -/
def smoothingFactor : ℚ := 2 / 5

/-- Lines 454-461: per text-bearing chunk, `deltaTime = now - lastChunkTime`,
`deltaChars = newText.length`; the smoothed delay is recomputed only when
`deltaTime > 1 && deltaChars > 0`. -/
def updateSmoothedDelay (smoothedCharDelay deltaTime : ℚ) (deltaChars : ℕ) : ℚ :=
  if 1 < deltaTime ∧ 0 < deltaChars then
    let charsPerSecond := ((deltaChars : ℚ) / deltaTime) * 1000
    let newCharDelay := 1000 / charsPerSecond
    smoothingFactor * newCharDelay + (1 - smoothingFactor) * smoothedCharDelay
  else smoothedCharDelay

/-- Line 472: `lastMessage.charDelay = Math.max(0.1, smoothedCharDelay)`. -/
def appliedCharDelay (smoothedCharDelay : ℚ) : ℚ := max (1 / 10) smoothedCharDelay

/-- The claim's words, taken literally: on every incoming chunk,
new delay = 0.4 * (elapsed ms / chars in chunk) + 0.6 * previous delay. -/
def claimedDelayUpdate (previous elapsedMs : ℚ) (chars : ℕ) : ℚ :=
  (2 / 5) * (elapsedMs / (chars : ℚ)) + (3 / 5) * previous

/-! ## Citation sources (src/types.ts and src/App.tsx lines 416, 437-450) -/

inductive SourceType where
  | web
  | file
deriving DecidableEq

structure Source where
  type : SourceType
  uri : List Char
  title : List Char
deriving DecidableEq

/-- A grounding chunk as consumed on lines 439-449: an optional `web` site
and an optional `retrievedContext` site, each with a uri and a title (a
missing or empty title both fall back to the uri, like JS `title || uri`). -/
structure GroundingSite where
  uri : List Char
  title : List Char
deriving DecidableEq

structure GroundingChunk where
  web : Option GroundingSite
  retrievedContext : Option GroundingSite
deriving DecidableEq

/-- Lines 439-449: a chunk is pushed onto `sources` only when no existing
entry has the same uri; `web` is checked before `retrievedContext`. -/
def addGroundingChunk (sources : List Source) (gc : GroundingChunk) : List Source :=
  match gc.web, gc.retrievedContext with
  | some w, _ =>
    if ∃ s ∈ sources, s.uri = w.uri then sources
    else sources ++ [⟨SourceType.web, w.uri, if w.title = [] then w.uri else w.title⟩]
  | none, some rc =>
    if ∃ s ∈ sources, s.uri = rc.uri then sources
    else sources ++ [⟨SourceType.file, rc.uri, if rc.title = [] then rc.uri else rc.title⟩]
  | none, none => sources

/-- Line 416 and the stream loop: `sources` starts empty and every chunk's
grounding chunks are folded in. -/
def accumSources (gcs : List GroundingChunk) : List Source :=
  gcs.foldl addGroundingChunk []

/-! ## Upload pipeline data model (src/App.tsx lines 5-11, 191-359) -/

inductive FileStatus where
  | uploading
  | indexing
  | ready
  | failed
deriving DecidableEq

/-- The `UploadedFile` record of lines 5-11. -/
structure UploadedFile where
  status : FileStatus
  name : List Char
  uri : Option (List Char)
  mimeType : Option (List Char)
  isImage : Option Bool
deriving DecidableEq

/-- The `uploadedFiles` JS `Map`, modelled by its lookup function. -/
def UploadedMap : Type := List Char → Option UploadedFile

/-- `map.set(key, value)`. -/
def mapSet (m : UploadedMap) (key : List Char) (value : UploadedFile) : UploadedMap :=
  fun n => if n = key then some value else m n

/-- What `ai.files.upload` (line 244) returns, as far as the code reads it:
`name`, `uri` and `mimeType` of the remote file. -/
structure UploadResponse where
  name : List Char
  uri : List Char
  mimeType : List Char
deriving DecidableEq

/-- The mime-type test of line 252: `uploadedFile.mimeType.startsWith('image/')`. -/
def isImageMime (mimeType : List Char) : Bool :=
  startsWithChars mimeType ("image/".data)

/-- Result of the successful processing of one file (lines 244-303):
whether an import into the file-search store was issued (line 287), how many
completion polls ran (lines 293-296), and the successive writes to the
`uploadedFiles` map. Images (lines 254-269) skip import and polling and are
written as `ready` with uri, mimeType and the image flag; documents are
written as `indexing` (lines 281-285) and then plain `ready` (lines 298-302). -/
structure ProcessResult where
  importIssued : Bool
  pollsIssued : ℕ
  mapWrites : List (List Char × UploadedFile)
deriving DecidableEq

def processUploadedFile (fileName : List Char) (resp : UploadResponse)
    (pollRounds : ℕ) : ProcessResult :=
  if isImageMime resp.mimeType then
    { importIssued := false
      pollsIssued := 0
      mapWrites := [(fileName,
        ⟨FileStatus.ready, fileName, some resp.uri, some resp.mimeType, some true⟩)] }
  else
    { importIssued := true
      pollsIssued := pollRounds
      mapWrites := [(fileName, ⟨FileStatus.indexing, fileName, none, none, none⟩),
        (fileName, ⟨FileStatus.ready, fileName, none, none, none⟩)] }

def applyWrites (m : UploadedMap) (ws : List (List Char × UploadedFile)) : UploadedMap :=
  ws.foldl (fun acc w => mapSet acc w.1 w.2) m

/-- How the processing of one file of the batch ends: either every awaited
call succeeds (carrying what the upload returned and how many polls
the import needed), or some call throws with the given error message
(line 308's `errorMessage`). -/
inductive FileResult where
  | success (resp : UploadResponse) (pollRounds : ℕ)
  | thrown (errorMessage : List Char)
deriving DecidableEq

def isThrownResult : FileResult → Bool
  | FileResult.thrown _ => true
  | FileResult.success _ _ => false

/-- Line 309's recognized error substring. -/
def billingErrorMessage : List Char := "Requested entity was not found".data

/-- The loop-carried state of lines 227-229 plus the `uploadedFiles` map. -/
structure LoopState where
  successes : ℕ
  failures : ℕ
  billingErrorFound : Bool
  uploadedFiles : UploadedMap

/-- Lines 232-319: one iteration of the sequential `for (const file of files)`
loop. On success the map writes of `processUploadedFile` land and
`successes++`; on a throw (lines 305-318) `failures++`, the billing flag is
set when the message contains the recognized substring, and the file's entry
becomes `failed`. -/
def processLoopFile (st : LoopState) (f : List Char × FileResult) : LoopState :=
  match f.2 with
  | FileResult.success resp pollRounds =>
    { successes := st.successes + 1
      failures := st.failures
      billingErrorFound := st.billingErrorFound
      uploadedFiles := applyWrites st.uploadedFiles
        (processUploadedFile f.1 resp pollRounds).mapWrites }
  | FileResult.thrown msg =>
    { successes := st.successes
      failures := st.failures + 1
      billingErrorFound := st.billingErrorFound || includesSub msg billingErrorMessage
      uploadedFiles := mapSet st.uploadedFiles f.1
        ⟨FileStatus.failed, f.1, none, none, none⟩ }

/-- Lines 202-208: before the batch, every selected file's entry is set to
status `uploading`. -/
def initialMap (m0 : UploadedMap) (files : List (List Char × FileResult)) : UploadedMap :=
  files.foldl (fun acc f =>
    mapSet acc f.1 ⟨FileStatus.uploading, f.1, none, none, none⟩) m0

/-- The whole per-file loop, from the pre-populated map and zeroed counters. -/
def runUploadLoop (m0 : UploadedMap) (files : List (List Char × FileResult)) : LoopState :=
  files.foldl processLoopFile
    { successes := 0, failures := 0, billingErrorFound := false
      uploadedFiles := initialMap m0 files }

/-- Lines 332-341: the failure-reporting system messages appended after the
loop — exactly one when there was any failure (the billing message or the
aggregate count message). -/
def postBatchFailureMessages (st : LoopState) : List (List Char) :=
  if 0 < st.failures then
    if st.billingErrorFound then ["upload failed. please check api key billing.".data]
    else [(Nat.repr st.failures).data ++ " file(s) failed.".data]
  else []

/-- Lines 332-341, restricted to the credential-selected flag: it is forced
to `false` only when there were failures, the billing substring was seen, and
the host key-selection capability `window.aistudio` is present. -/
def apiKeySelectedAfterBatch (aistudioPresent : Bool) (st : LoopState)
    (isApiKeySelected : Bool) : Bool :=
  if 0 < st.failures then
    if st.billingErrorFound then
      if aistudioPresent then false else isApiKeySelected
    else isApiKeySelected
  else isApiKeySelected

/-- Lines 349-353: one `forEach` body of the batch-level catch handler — a
file's entry is overwritten with `failed` only when its current status in
the map being built is `uploading`. -/
def catchMarkFailed (acc : UploadedMap) (fname : List Char) : UploadedMap :=
  match acc fname with
  | some e =>
    if e.status = FileStatus.uploading then
      mapSet acc fname ⟨FileStatus.failed, fname, none, none, none⟩
    else acc
  | none => acc

/-- Lines 344-355: the batch-level catch handler runs `catchMarkFailed` over
all of the batch's file names. -/
def batchCatchUpdate (files : List (List Char)) (m : UploadedMap) : UploadedMap :=
  files.foldl catchMarkFailed m

/-! ## Sequential-upload event trace (src/App.tsx lines 231-319)

The `for ... of` loop awaits every network call of file k before the loop
body of file k+1 starts, so the request trace of a batch is the
concatenation of per-file traces. Each file's observable behaviour is
abstracted by whether it is an image and how many completion polls
its import needs. -/

inductive UploadEvent where
  | uploadRequest (k : ℕ)
  | importRequest (k : ℕ)
  | pollRequest (k : ℕ)
deriving DecidableEq

def eventFile : UploadEvent → ℕ
  | UploadEvent.uploadRequest k => k
  | UploadEvent.importRequest k => k
  | UploadEvent.pollRequest k => k

structure FileBehavior where
  isImage : Bool
  pollRounds : ℕ
deriving DecidableEq

/-- The network requests issued while processing file k: the upload
(line 244), then — for non-images — the import (line 287) and its
completion polls (line 295). -/
def processFileTrace (k : ℕ) (b : FileBehavior) : List UploadEvent :=
  UploadEvent.uploadRequest k ::
    (if b.isImage then []
     else UploadEvent.importRequest k :: List.replicate b.pollRounds (UploadEvent.pollRequest k))

def batchTraceFrom (k : ℕ) : List FileBehavior → List UploadEvent
  | [] => []
  | b :: bs => processFileTrace k b ++ batchTraceFrom (k + 1) bs

/-- The request trace of a whole batch, files numbered from 0 in selection
order. -/
def batchTrace (bs : List FileBehavior) : List UploadEvent :=
  batchTraceFrom 0 bs

/-! ## General lemmas -/

theorem prefOf_refl (l : List Char) : PrefOf l l :=
  ⟨l.length, (List.take_length l).symm⟩

theorem prefOf_append_singleton (l : List Char) (x : Char) : PrefOf l (l ++ [x]) :=
  ⟨l.length, (List.take_left l [x]).symm⟩

/-! ## C2: the smoothed-delay estimator -/

/-- C2 (counterexample): a text chunk arriving 0.5 ms after the previous one
does not recompute the delay (the code requires `deltaTime > 1`), while the
claim's every-chunk formula would change it. -/
theorem C2_smoothing_counterexample :
    updateSmoothedDelay 20 (1 / 2) 5 = 20 ∧ claimedDelayUpdate 20 (1 / 2) 5 ≠ 20 := by
  constructor
  · norm_num [updateSmoothedDelay]
  · norm_num [claimedDelayUpdate]

/-- C2 (amended): during one streamed response the delay is recomputed as
0.4 * (elapsed ms / chars) + 0.6 * previous — but only for a text-bearing
chunk whose elapsed time exceeds 1 ms; otherwise it is left unchanged. The
delay applied to rendering is clamped to at least 0.1 ms. -/
theorem C2_smoothing_corrected (smoothed deltaTime : ℚ) (deltaChars : ℕ) :
    updateSmoothedDelay smoothed deltaTime deltaChars =
      (if 1 < deltaTime ∧ 0 < deltaChars then
        (2 / 5) * (deltaTime / (deltaChars : ℚ)) + (3 / 5) * smoothed
      else smoothed) ∧
    (1 / 10 : ℚ) ≤ appliedCharDelay smoothed := by
  refine ⟨?_, le_max_left _ _⟩
  unfold updateSmoothedDelay smoothingFactor
  split
  case isTrue h =>
    have h1 : deltaTime ≠ 0 := by
      intro h0
      rw [h0] at h
      exact absurd h.1 (by norm_num)
    have h2 : (deltaChars : ℚ) ≠ 0 := Nat.cast_ne_zero.2 (Nat.pos_iff_ne_zero.1 h.2)
    field_simp
    ring
  case isFalse h => rfl

/-! ## C5: the 40-character unique-name budget -/

/-- C5 (counterexample): the budget holds only because real timestamps and
suffixes are short; with a 39-character timestamp string the assembled name
has 42 characters, because JS `substring` clamps the negative budget to 0
but the two separators and both suffix parts are still appended. -/
theorem C5_name_budget_counterexample :
    ¬ (uniqueResourceName ("doc".data) (List.replicate 39 '1') ['1']).length ≤ 40 := by
  decide

/-- C5 (amended): whenever the timestamp and random suffix together take at
most 38 characters — always true for `Date.now()` (13 digits) and a suffix
below 100000 (at most 5 digits) — the assembled resource name has length at
most 40. -/
theorem C5_name_budget_corrected (fileName timestamp randomSuffix : List Char)
    (h : timestamp.length + randomSuffix.length ≤ 38) :
    (uniqueResourceName fileName timestamp randomSuffix).length ≤ 40 := by
  simp only [uniqueResourceName, List.length_append, List.length_cons, List.length_take]
  omega

/-- C5 witness: a realistic timestamp and suffix stay within the budget. -/
theorem C5_name_budget_witness :
    ("1700000000000".data).length + ("12345".data).length ≤ 38 ∧
    (uniqueResourceName ("report final.pdf".data) ("1700000000000".data)
      ("12345".data)).length ≤ 40 :=
  ⟨by decide,
   C5_name_budget_corrected ("report final.pdf".data) ("1700000000000".data)
     ("12345".data) (by decide)⟩

/-! ## C8: images skip indexing -/

/-- C8: a file whose uploaded mimeType starts with `image/` issues no import
and no completion poll, and its single map write puts it directly into
status `ready`, carrying the remote uri and mimeType with the image flag. -/
theorem C8_image_skips_indexing (fileName : List Char) (resp : UploadResponse)
    (pollRounds : ℕ) (h : isImageMime resp.mimeType = true) :
    (processUploadedFile fileName resp pollRounds).importIssued = false ∧
    (processUploadedFile fileName resp pollRounds).pollsIssued = 0 ∧
    (processUploadedFile fileName resp pollRounds).mapWrites =
      [(fileName,
        ⟨FileStatus.ready, fileName, some resp.uri, some resp.mimeType, some true⟩)] := by
  simp [processUploadedFile, h]

/-- C8 witness: a PNG upload at a concrete input. -/
theorem C8_image_skips_indexing_witness :
    isImageMime ("image/png".data) = true ∧
    (processUploadedFile ("cat.png".data)
        ⟨"files/abc".data, "uri1".data, "image/png".data⟩ 3).mapWrites =
      [(("cat.png".data),
        ⟨FileStatus.ready, "cat.png".data, some ("uri1".data), some ("image/png".data),
          some true⟩)] :=
  ⟨by decide,
   (C8_image_skips_indexing ("cat.png".data)
     ⟨"files/abc".data, "uri1".data, "image/png".data⟩ 3 (by decide)).2.2⟩

/-! ## C6: citation deduplication -/

theorem addGroundingChunk_pairwise {sources : List Source}
    (h : sources.Pairwise (fun a b => a.uri ≠ b.uri)) (gc : GroundingChunk) :
    (addGroundingChunk sources gc).Pairwise (fun a b => a.uri ≠ b.uri) := by
  obtain ⟨w, rc⟩ := gc
  unfold addGroundingChunk
  cases w with
  | some w =>
    dsimp only
    split
    case isTrue => exact h
    case isFalse hni =>
      refine List.pairwise_append.2 ⟨h, List.pairwise_singleton _ _, ?_⟩
      intro a ha b hb
      rw [List.mem_singleton] at hb
      subst hb
      exact fun hc => hni ⟨a, ha, hc⟩
  | none =>
    cases rc with
    | some rc =>
      dsimp only
      split
      case isTrue => exact h
      case isFalse hni =>
        refine List.pairwise_append.2 ⟨h, List.pairwise_singleton _ _, ?_⟩
        intro a ha b hb
        rw [List.mem_singleton] at hb
        subst hb
        exact fun hc => hni ⟨a, ha, hc⟩
    | none => exact h

theorem foldl_addGroundingChunk_pairwise (gcs : List GroundingChunk) :
    ∀ acc : List Source, acc.Pairwise (fun a b => a.uri ≠ b.uri) →
      (gcs.foldl addGroundingChunk acc).Pairwise (fun a b => a.uri ≠ b.uri) := by
  induction gcs with
  | nil => intro acc h; exact h
  | cons gc gcs ih =>
    intro acc h
    exact ih _ (addGroundingChunk_pairwise h gc)

/-- Sources earlier in the list are never altered by adding a chunk: the
list only ever grows at the end. -/
theorem addGroundingChunk_extends (sources : List Source) (gc : GroundingChunk) :
    ∃ ext : List Source, addGroundingChunk sources gc = sources ++ ext := by
  obtain ⟨w, rc⟩ := gc
  unfold addGroundingChunk
  cases w with
  | some w =>
    dsimp only
    split
    case isTrue => exact ⟨[], (List.append_nil _).symm⟩
    case isFalse => exact ⟨_, rfl⟩
  | none =>
    cases rc with
    | some rc =>
      dsimp only
      split
      case isTrue => exact ⟨[], (List.append_nil _).symm⟩
      case isFalse => exact ⟨_, rfl⟩
    | none => exact ⟨[], (List.append_nil _).symm⟩

/-- C6: after folding any stream of grounding chunks, the accumulated
sources carry pairwise distinct uris (so a chunk whose uri is already
present was not added), and each single addition only appends to the list,
so the first occurrence's entry — its type and title — is kept verbatim. -/
theorem C6_sources_dedup (gcs : List GroundingChunk) :
    (accumSources gcs).Pairwise (fun a b => a.uri ≠ b.uri) ∧
    ∀ (sources : List Source) (gc : GroundingChunk),
      ∃ ext : List Source, addGroundingChunk sources gc = sources ++ ext :=
  ⟨foldl_addGroundingChunk_pairwise gcs [] (List.Pairwise.nil),
   addGroundingChunk_extends⟩

/-! ## C7: the upload loop is sequential -/

theorem eventFile_processFileTrace {k : ℕ} {b : FileBehavior} {e : UploadEvent}
    (h : e ∈ processFileTrace k b) : eventFile e = k := by
  unfold processFileTrace at h
  rw [List.mem_cons] at h
  rcases h with h | h
  · subst h; rfl
  · split at h
    case isTrue => simp at h
    case isFalse =>
      rw [List.mem_cons] at h
      rcases h with h | h
      · subst h; rfl
      · rw [List.eq_of_mem_replicate h]; rfl

theorem le_eventFile_batchTraceFrom :
    ∀ (bs : List FileBehavior) (k : ℕ) (e : UploadEvent),
      e ∈ batchTraceFrom k bs → k ≤ eventFile e := by
  intro bs
  induction bs with
  | nil => intro k e h; simp [batchTraceFrom] at h
  | cons b bs ih =>
    intro k e h
    rw [batchTraceFrom, List.mem_append] at h
    rcases h with h | h
    · rw [eventFile_processFileTrace h]
    · exact le_trans (Nat.le_succ k) (ih (k + 1) e h)

theorem pairwise_le_of_const {l : List ℕ} {k : ℕ} (h : ∀ x ∈ l, x = k) :
    l.Pairwise (fun i j => i ≤ j) := by
  induction l with
  | nil => exact List.Pairwise.nil
  | cons x t ih =>
    refine List.Pairwise.cons ?_ (ih fun y hy => h y (List.mem_cons_of_mem x hy))
    intro y hy
    rw [h x (List.mem_cons_self x t), h y (List.mem_cons_of_mem x hy)]

theorem batchTraceFrom_pairwise (bs : List FileBehavior) :
    ∀ k : ℕ, ((batchTraceFrom k bs).map eventFile).Pairwise (fun i j => i ≤ j) := by
  induction bs with
  | nil => intro k; simp [batchTraceFrom]
  | cons b bs ih =>
    intro k
    rw [batchTraceFrom, List.map_append]
    refine List.pairwise_append.2 ⟨?_, ih (k + 1), ?_⟩
    · refine pairwise_le_of_const (k := k) ?_
      intro x hx
      obtain ⟨e, he, rfl⟩ := List.mem_map.1 hx
      exact eventFile_processFileTrace he
    · intro i hi j hj
      obtain ⟨e, he, rfl⟩ := List.mem_map.1 hi
      obtain ⟨e', he', rfl⟩ := List.mem_map.1 hj
      rw [eventFile_processFileTrace he]
      exact le_trans (Nat.le_succ k) (le_eventFile_batchTraceFrom bs (k + 1) e' he')

/-- C7: in the request trace of a batch the file indices are monotone —
every request belonging to file k precedes every request of file k+1 — and
each file's block begins with its upload request, so the upload request of
file k+1 is only issued after all processing requests of file k are done. -/
theorem C7_sequential_uploads (bs : List FileBehavior) :
    ((batchTrace bs).map eventFile).Pairwise (fun i j => i ≤ j) ∧
    ∀ (k : ℕ) (b : FileBehavior),
      (processFileTrace k b).head? = some (UploadEvent.uploadRequest k) :=
  ⟨batchTraceFrom_pairwise bs 0, fun _ _ => rfl⟩

/-! ## Upload-loop bookkeeping lemmas (for C3 and C9) -/

theorem loop_total (files : List (List Char × FileResult)) :
    ∀ st : LoopState,
      (files.foldl processLoopFile st).successes
        + (files.foldl processLoopFile st).failures
      = st.successes + st.failures + files.length := by
  induction files with
  | nil => intro st; simp
  | cons f t ih =>
    intro st
    rw [List.foldl_cons, ih]
    obtain ⟨name, r⟩ := f
    cases r <;> (simp [processLoopFile]; omega)

theorem loop_failures_eq (files : List (List Char × FileResult)) :
    ∀ st : LoopState,
      (files.foldl processLoopFile st).failures
        = st.failures + files.countP (fun f => isThrownResult f.2) := by
  induction files with
  | nil => intro st; simp
  | cons f t ih =>
    intro st
    rw [List.foldl_cons, ih, List.countP_cons]
    obtain ⟨name, r⟩ := f
    cases r with
    | success resp pr => simp [processLoopFile, isThrownResult]
    | thrown msg =>
      simp only [processLoopFile, isThrownResult, if_true]
      omega

theorem loop_billing_mono (files : List (List Char × FileResult)) :
    ∀ st : LoopState, st.billingErrorFound = true →
      (files.foldl processLoopFile st).billingErrorFound = true := by
  induction files with
  | nil => intro st h; exact h
  | cons f t ih =>
    intro st h
    rw [List.foldl_cons]
    refine ih _ ?_
    obtain ⟨name, r⟩ := f
    cases r <;> simp [processLoopFile, h]

theorem loop_billing_of_mem (files : List (List Char × FileResult))
    (name msg : List Char) (hmsg : includesSub msg billingErrorMessage = true) :
    ∀ st : LoopState, (name, FileResult.thrown msg) ∈ files →
      (files.foldl processLoopFile st).billingErrorFound = true := by
  induction files with
  | nil => intro st h; simp at h
  | cons f t ih =>
    intro st h
    rw [List.mem_cons] at h
    rw [List.foldl_cons]
    rcases h with h | h
    · refine loop_billing_mono t _ ?_
      rw [← h]
      simp [processLoopFile, hmsg]
    · exact ih _ h

theorem loop_thrown_pos (files : List (List Char × FileResult))
    (name msg : List Char) (hmem : (name, FileResult.thrown msg) ∈ files)
    (st : LoopState) : 0 < (files.foldl processLoopFile st).failures := by
  rw [loop_failures_eq]
  have : 0 < files.countP (fun f => isThrownResult f.2) :=
    List.countP_pos_iff.2 ⟨_, hmem, rfl⟩
  omega

/-! ## C3: the billing error and the credential-selected flag -/

/-- C3 (counterexample): a batch whose one file fails with the recognized
billing substring, run without the host key-selection capability
(`window.aistudio` absent): the flag stays `true` — the code only clears it
inside `if (window.aistudio)`. -/
theorem C3_billing_flag_counterexample :
    includesSub billingErrorMessage billingErrorMessage = true ∧
    apiKeySelectedAfterBatch false
      (runUploadLoop (fun _ => none)
        [("doc.pdf".data, FileResult.thrown billingErrorMessage)]) true = true := by
  exact ⟨by decide, by decide⟩

/-- C3 (amended): if some file of the batch fails with an error message
containing "Requested entity was not found" and the host key-selection
capability (`window.aistudio`) is present, then after the batch the
credential-selected flag is false, whatever it was before. -/
theorem C3_billing_flag_corrected (m0 : UploadedMap)
    (files : List (List Char × FileResult)) (name msg : List Char) (prior : Bool)
    (hmem : (name, FileResult.thrown msg) ∈ files)
    (hbilling : includesSub msg billingErrorMessage = true) :
    apiKeySelectedAfterBatch true (runUploadLoop m0 files) prior = false := by
  have hb : (runUploadLoop m0 files).billingErrorFound = true :=
    loop_billing_of_mem files name msg hbilling _ hmem
  have hf : 0 < (runUploadLoop m0 files).failures :=
    loop_thrown_pos files name msg hmem _
  simp [apiKeySelectedAfterBatch, hb, hf]

/-- C3 witness: one billing-failing file with the capability present. -/
theorem C3_billing_flag_witness :
    (("a".data, FileResult.thrown billingErrorMessage)
        ∈ [("a".data, FileResult.thrown billingErrorMessage)]) ∧
    includesSub billingErrorMessage billingErrorMessage = true ∧
    apiKeySelectedAfterBatch true
      (runUploadLoop (fun _ => none)
        [("a".data, FileResult.thrown billingErrorMessage)]) true = false :=
  ⟨by decide, by decide,
   C3_billing_flag_corrected (fun _ => none)
     [("a".data, FileResult.thrown billingErrorMessage)] ("a".data)
     billingErrorMessage true (by decide) (by decide)⟩

/-! ## C10: the batch-level catch handler only touches `uploading` entries -/

theorem catchMarkFailed_preserve {acc : UploadedMap} {name : List Char}
    {e : UploadedFile} (fname : List Char) (h : acc name = some e)
    (hs : e.status ≠ FileStatus.uploading) : catchMarkFailed acc fname name = some e := by
  unfold catchMarkFailed
  cases hacc : acc fname with
  | none => exact h
  | some e' =>
    dsimp only
    split
    case isTrue hup =>
      unfold mapSet
      by_cases hne : name = fname
      · subst hne
        rw [h] at hacc
        cases hacc
        exact absurd hup hs
      · rw [if_neg hne]
        exact h
    case isFalse => exact h

theorem catchMarkFailed_other {acc : UploadedMap} {name fname : List Char}
    (hne : name ≠ fname) : catchMarkFailed acc fname name = acc name := by
  unfold catchMarkFailed
  cases acc fname with
  | none => rfl
  | some e' =>
    dsimp only
    split
    case isTrue => exact if_neg hne
    case isFalse => rfl

theorem batchCatch_preserve (files : List (List Char)) :
    ∀ (m : UploadedMap) (name : List Char) (e : UploadedFile),
      m name = some e → e.status ≠ FileStatus.uploading →
      batchCatchUpdate files m name = some e := by
  induction files with
  | nil => intro m name e h _; exact h
  | cons f t ih =>
    intro m name e h hs
    exact ih _ name e (catchMarkFailed_preserve f h hs) hs

theorem batchCatch_fails_uploading (files : List (List Char)) :
    ∀ (m : UploadedMap) (name : List Char) (e : UploadedFile),
      m name = some e → e.status = FileStatus.uploading → name ∈ files →
      batchCatchUpdate files m name =
        some ⟨FileStatus.failed, name, none, none, none⟩ := by
  induction files with
  | nil => intro m name e _ _ hmem; simp at hmem
  | cons f t ih =>
    intro m name e h hs hmem
    by_cases hf : name = f
    · subst hf
      have hstep : catchMarkFailed m name name =
          some ⟨FileStatus.failed, name, none, none, none⟩ := by
        unfold catchMarkFailed
        rw [h]
        dsimp only
        rw [if_pos hs]
        unfold mapSet
        rw [if_pos rfl]
      exact batchCatch_preserve t _ name _ hstep (by simp)
    · rw [List.mem_cons] at hmem
      rcases hmem with hmem | hmem
      · exact absurd hmem hf
      · exact ih _ name e ((catchMarkFailed_other hf).trans h) hs hmem

/-- C10: when the batch-level catch handler runs, an entry whose status is
not `uploading` (so `indexing`, `ready` or `failed`) is left untouched, and
an entry of the batch still in `uploading` is overwritten with `failed`. -/
theorem C10_batch_catch_frame (files : List (List Char)) (m : UploadedMap) :
    (∀ (name : List Char) (e : UploadedFile),
      m name = some e → e.status ≠ FileStatus.uploading →
      batchCatchUpdate files m name = some e) ∧
    (∀ (name : List Char) (e : UploadedFile),
      m name = some e → e.status = FileStatus.uploading → name ∈ files →
      batchCatchUpdate files m name =
        some ⟨FileStatus.failed, name, none, none, none⟩) :=
  ⟨fun name e h hs => batchCatch_preserve files m name e h hs,
   fun name e h hs hmem => batchCatch_fails_uploading files m name e h hs hmem⟩

/-- C10 witness: a two-entry map — the `ready` entry survives, the
`uploading` entry of the batch becomes `failed`. -/
theorem C10_batch_catch_frame_witness :
    ((fun n => if n = ("a".data) then
        some (⟨FileStatus.ready, "a".data, none, none, none⟩ : UploadedFile)
      else if n = ("b".data) then
        some (⟨FileStatus.uploading, "b".data, none, none, none⟩ : UploadedFile)
      else none) : UploadedMap) ("a".data) =
      some ⟨FileStatus.ready, "a".data, none, none, none⟩ ∧
    batchCatchUpdate ["a".data, "b".data]
      (fun n => if n = ("a".data) then
        some (⟨FileStatus.ready, "a".data, none, none, none⟩ : UploadedFile)
      else if n = ("b".data) then
        some (⟨FileStatus.uploading, "b".data, none, none, none⟩ : UploadedFile)
      else none) ("a".data) = some ⟨FileStatus.ready, "a".data, none, none, none⟩ ∧
    batchCatchUpdate ["a".data, "b".data]
      (fun n => if n = ("a".data) then
        some (⟨FileStatus.ready, "a".data, none, none, none⟩ : UploadedFile)
      else if n = ("b".data) then
        some (⟨FileStatus.uploading, "b".data, none, none, none⟩ : UploadedFile)
      else none) ("b".data) = some ⟨FileStatus.failed, "b".data, none, none, none⟩ := by
  refine ⟨by decide, ?_, ?_⟩
  · exact (C10_batch_catch_frame ["a".data, "b".data] _).1 ("a".data)
      ⟨FileStatus.ready, "a".data, none, none, none⟩ (by decide) (by decide)
  · exact (C10_batch_catch_frame ["a".data, "b".data] _).2 ("b".data)
      ⟨FileStatus.uploading, "b".data, none, none, none⟩ (by decide) (by decide) (by decide)

/-! ## C9: per-file failure isolation -/

theorem processUploadedFile_writes_key (fileName : List Char) (resp : UploadResponse)
    (pollRounds : ℕ) :
    ∀ w ∈ (processUploadedFile fileName resp pollRounds).mapWrites, w.1 = fileName := by
  unfold processUploadedFile
  split
  · intro w hw
    rw [List.mem_singleton] at hw
    subst hw
    rfl
  · intro w hw
    simp only [List.mem_cons, List.not_mem_nil, or_false] at hw
    rcases hw with hw | hw <;> (subst hw; rfl)

theorem applyWrites_other {m : UploadedMap} {n k : List Char}
    (ws : List (List Char × UploadedFile)) (hk : ∀ w ∈ ws, w.1 = k) (hne : n ≠ k) :
    applyWrites m ws n = m n := by
  induction ws generalizing m with
  | nil => rfl
  | cons w t ih =>
    rw [applyWrites, List.foldl_cons]
    have hstep : mapSet m w.1 w.2 n = m n := by
      unfold mapSet
      rw [if_neg (by rw [hk w (List.mem_cons_self w t)]; exact hne)]
    rw [← applyWrites]
    rw [ih fun w' hw' => hk w' (List.mem_cons_of_mem w hw'), hstep]

theorem processLoopFile_map_other (st : LoopState) (f : List Char × FileResult)
    {n : List Char} (hne : n ≠ f.1) :
    (processLoopFile st f).uploadedFiles n = st.uploadedFiles n := by
  obtain ⟨name, r⟩ := f
  cases r with
  | success resp pr =>
    exact applyWrites_other _ (processUploadedFile_writes_key name resp pr) hne
  | thrown msg =>
    unfold processLoopFile mapSet
    dsimp only
    rw [if_neg hne]

theorem loop_map_not_mem (files : List (List Char × FileResult)) :
    ∀ (st : LoopState) (n : List Char), n ∉ files.map Prod.fst →
      (files.foldl processLoopFile st).uploadedFiles n = st.uploadedFiles n := by
  induction files with
  | nil => intro st n _; rfl
  | cons f t ih =>
    intro st n hn
    simp only [List.map_cons, List.mem_cons, not_or] at hn
    rw [List.foldl_cons, ih (processLoopFile st f) n hn.2,
      processLoopFile_map_other st f hn.1]

theorem loop_thrown_failed (files : List (List Char × FileResult)) :
    ∀ (st : LoopState) (name msg : List Char),
      (name, FileResult.thrown msg) ∈ files → (files.map Prod.fst).Nodup →
      (files.foldl processLoopFile st).uploadedFiles name =
        some ⟨FileStatus.failed, name, none, none, none⟩ := by
  induction files with
  | nil => intro st name msg hmem _; simp at hmem
  | cons f t ih =>
    intro st name msg hmem hnodup
    simp only [List.map_cons, List.nodup_cons] at hnodup
    rw [List.mem_cons] at hmem
    rw [List.foldl_cons]
    rcases hmem with hmem | hmem
    · have hname : f.1 = name := by rw [← hmem]
      have hstep : (processLoopFile st f).uploadedFiles name =
          some ⟨FileStatus.failed, name, none, none, none⟩ := by
        rw [← hmem]
        unfold processLoopFile mapSet
        dsimp only
        rw [if_pos rfl]
      have hnm : name ∉ t.map Prod.fst := by
        rw [← hname]
        exact hnodup.1
      rw [loop_map_not_mem t (processLoopFile st f) name hnm, hstep]
    · have hne : name ≠ f.1 := by
        intro heq
        exact hnodup.1 (heq ▸ List.mem_map.2 ⟨_, hmem, rfl⟩)
      exact ih _ name msg hmem hnodup.2

/-- C9: a thrown file of the batch ends with its map entry in status
`failed`; the failure counter counts exactly the thrown files; the loop is
not aborted — every file of the batch is accounted for as a success or a
failure; and a batch with failures is reported by exactly one aggregate
system message. -/
theorem C9_failure_isolation (m0 : UploadedMap)
    (files : List (List Char × FileResult)) (name msg : List Char)
    (hmem : (name, FileResult.thrown msg) ∈ files)
    (hnodup : (files.map Prod.fst).Nodup) :
    (runUploadLoop m0 files).uploadedFiles name =
      some ⟨FileStatus.failed, name, none, none, none⟩ ∧
    (runUploadLoop m0 files).failures =
      files.countP (fun f => isThrownResult f.2) ∧
    (runUploadLoop m0 files).successes + (runUploadLoop m0 files).failures =
      files.length ∧
    0 < (runUploadLoop m0 files).failures ∧
    (postBatchFailureMessages (runUploadLoop m0 files)).length = 1 := by
  have hfail : (runUploadLoop m0 files).failures =
      files.countP (fun f => isThrownResult f.2) := by
    rw [runUploadLoop, loop_failures_eq]
    simp
  have hpos : 0 < (runUploadLoop m0 files).failures :=
    loop_thrown_pos files name msg hmem _
  refine ⟨loop_thrown_failed files _ name msg hmem hnodup, hfail, ?_, hpos, ?_⟩
  · rw [runUploadLoop, loop_total]
    simp
  · unfold postBatchFailureMessages
    rw [if_pos hpos]
    split <;> rfl

/-- C9 witness: one thrown file and one successful file. -/
theorem C9_failure_isolation_witness :
    (("a".data, FileResult.thrown ("boom".data))
        ∈ [("a".data, FileResult.thrown ("boom".data)),
           ("b".data, FileResult.success ⟨"n".data, "u".data, "t".data⟩ 0)]) ∧
    ([("a".data, FileResult.thrown ("boom".data)),
      ("b".data, FileResult.success ⟨"n".data, "u".data, "t".data⟩ 0)].map
        Prod.fst).Nodup ∧
    (runUploadLoop (fun _ => none)
      [("a".data, FileResult.thrown ("boom".data)),
       ("b".data, FileResult.success ⟨"n".data, "u".data, "t".data⟩ 0)]).uploadedFiles
      ("a".data) = some ⟨FileStatus.failed, "a".data, none, none, none⟩ :=
  ⟨by decide, by decide,
   (C9_failure_isolation (fun _ => none)
     [("a".data, FileResult.thrown ("boom".data)),
      ("b".data, FileResult.success ⟨"n".data, "u".data, "t".data⟩ 0)]
     ("a".data) ("boom".data) (by decide) (by decide)).1⟩

/-! ## C4: shape of sanitized resource names -/

theorem collapseHyphens_cons (c : Char) (t : List Char) :
    collapseHyphens (c :: t) =
      if c = '-' ∧ (collapseHyphens t).head? = some '-' then collapseHyphens t
      else c :: collapseHyphens t := rfl

theorem mem_collapseHyphens {c : Char} :
    ∀ {l : List Char}, c ∈ collapseHyphens l → c ∈ l := by
  intro l
  induction l with
  | nil => intro h; exact absurd h (List.not_mem_nil c)
  | cons x t ih =>
    intro h
    rw [collapseHyphens_cons] at h
    split at h
    case isTrue => exact List.mem_cons_of_mem x (ih h)
    case isFalse =>
      rw [List.mem_cons] at h
      rcases h with h | h
      · exact h ▸ List.mem_cons_self x t
      · exact List.mem_cons_of_mem x (ih h)

theorem chain'_collapseHyphens :
    ∀ l : List Char,
      List.Chain' (fun a b => ¬(a = '-' ∧ b = '-')) (collapseHyphens l) := by
  intro l
  induction l with
  | nil => exact List.chain'_nil
  | cons x t ih =>
    rw [collapseHyphens_cons]
    split
    case isTrue => exact ih
    case isFalse hcond =>
      refine List.chain'_cons'.2 ⟨?_, ih⟩
      intro y hy hxy
      exact hcond ⟨hxy.1, by rw [hy, hxy.2]⟩

theorem chain'_dropLast {l : List Char}
    (h : List.Chain' (fun a b => ¬(a = '-' ∧ b = '-')) l) :
    List.Chain' (fun a b => ¬(a = '-' ∧ b = '-')) l.dropLast := by
  induction l using List.reverseRecOn with
  | nil => exact List.chain'_nil
  | append_singleton t a _ =>
    rw [List.dropLast_concat]
    exact (List.chain'_append.1 h).1

theorem head?_dropLeadingHyphen {l : List Char}
    (h : List.Chain' (fun a b => ¬(a = '-' ∧ b = '-')) l) :
    (dropLeadingHyphen l).head? ≠ some '-' := by
  unfold dropLeadingHyphen
  split
  case isTrue hhd =>
    cases l with
    | nil => simp at hhd
    | cons c t =>
      simp only [List.head?_cons, Option.some.injEq] at hhd
      subst hhd
      intro hcontra
      have := (List.chain'_cons'.1 h).1
      cases ht : t.head? with
      | none =>
        rw [List.tail_cons, ht] at hcontra
        cases hcontra
      | some y =>
        have hy := this y ht
        rw [List.tail_cons, ht] at hcontra
        cases hcontra
        exact hy ⟨rfl, rfl⟩
  case isFalse hhd => exact hhd

theorem chain'_dropLeadingHyphen {l : List Char}
    (h : List.Chain' (fun a b => ¬(a = '-' ∧ b = '-')) l) :
    List.Chain' (fun a b => ¬(a = '-' ∧ b = '-')) (dropLeadingHyphen l) := by
  unfold dropLeadingHyphen
  split
  case isTrue => exact h.tail
  case isFalse => exact h

theorem getLast?_dropTrailingHyphen {l : List Char}
    (h : List.Chain' (fun a b => ¬(a = '-' ∧ b = '-')) l) :
    (dropTrailingHyphen l).getLast? ≠ some '-' := by
  unfold dropTrailingHyphen
  split
  case isTrue hlast =>
    induction l using List.reverseRecOn with
    | nil => simp
    | append_singleton t a _ =>
      rw [List.dropLast_concat]
      rw [List.getLast?_concat] at hlast
      cases hlast
      intro hcontra
      have hcross := (List.chain'_append.1 h).2.2
      cases ht : t.getLast? with
      | none =>
        rw [ht] at hcontra
        cases hcontra
      | some y =>
        rw [ht] at hcontra
        cases hcontra
        exact hcross '-' ht '-' (by simp) ⟨rfl, rfl⟩
  case isFalse hlast => exact hlast

theorem head?_dropTrailingHyphen {l : List Char} (h : l.head? ≠ some '-') :
    (dropTrailingHyphen l).head? ≠ some '-' := by
  unfold dropTrailingHyphen
  split
  case isTrue =>
    cases l with
    | nil => simp
    | cons a t =>
      cases t with
      | nil => simp
      | cons b u =>
        simp only [List.head?_cons] at h ⊢
        simpa using h
  case isFalse => exact h

theorem chain'_dropTrailingHyphen {l : List Char}
    (h : List.Chain' (fun a b => ¬(a = '-' ∧ b = '-')) l) :
    List.Chain' (fun a b => ¬(a = '-' ∧ b = '-')) (dropTrailingHyphen l) := by
  unfold dropTrailingHyphen
  split
  case isTrue => exact chain'_dropLast h
  case isFalse => exact h

theorem mem_dropLeadingHyphen {c : Char} {l : List Char}
    (h : c ∈ dropLeadingHyphen l) : c ∈ l := by
  unfold dropLeadingHyphen at h
  split at h
  case isTrue => exact (List.tail_sublist l).subset h
  case isFalse => exact h

theorem mem_dropTrailingHyphen {c : Char} {l : List Char}
    (h : c ∈ dropTrailingHyphen l) : c ∈ l := by
  unfold dropTrailingHyphen at h
  split at h
  case isTrue => exact (List.dropLast_sublist l).subset h
  case isFalse => exact h

theorem mem_replaceDisallowed {c : Char} {l : List Char}
    (h : c ∈ replaceDisallowed l) : isAllowedChar c = true := by
  unfold replaceDisallowed at h
  obtain ⟨x, _, hx⟩ := List.mem_map.1 h
  by_cases hall : isAllowedChar x = true
  · rw [if_pos hall] at hx
    exact hx ▸ hall
  · rw [if_neg hall] at hx
    subst hx
    decide

/-- C4: for every input, `sanitizeResourceName` yields only characters in
`[a-z0-9-]`, never two adjacent hyphens, and neither a leading nor a
trailing hyphen. -/
theorem C4_sanitize_correct (name : List Char) :
    (∀ c ∈ sanitizeResourceName name, isAllowedChar c = true) ∧
    List.Chain' (fun a b => ¬(a = '-' ∧ b = '-')) (sanitizeResourceName name) ∧
    (sanitizeResourceName name).head? ≠ some '-' ∧
    (sanitizeResourceName name).getLast? ≠ some '-' := by
  have hchain := chain'_collapseHyphens (replaceDisallowed (name.map Char.toLower))
  refine ⟨?_, ?_, ?_, ?_⟩
  · intro c hc
    exact mem_replaceDisallowed
      (mem_collapseHyphens (mem_dropLeadingHyphen (mem_dropTrailingHyphen hc)))
  · exact chain'_dropTrailingHyphen (chain'_dropLeadingHyphen hchain)
  · exact head?_dropTrailingHyphen (head?_dropLeadingHyphen hchain)
  · exact getLast?_dropTrailingHyphen (chain'_dropLeadingHyphen hchain)

/-- C4 witness: a name with spaces, dots, capitals and stray hyphens. -/
theorem C4_sanitize_correct_witness :
    ('m' ∈ sanitizeResourceName ("--My  File!!.txt-".data)) ∧
    isAllowedChar 'm' = true ∧
    (sanitizeResourceName ("--My  File!!.txt-".data)).head? ≠ some '-' ∧
    (sanitizeResourceName ("--My  File!!.txt-".data)).getLast? ≠ some '-' :=
  ⟨by decide,
   (C4_sanitize_correct ("--My  File!!.txt-".data)).1 'm' (by decide),
   (C4_sanitize_correct ("--My  File!!.txt-".data)).2.2.1,
   (C4_sanitize_correct ("--My  File!!.txt-".data)).2.2.2⟩

/-! ## C1: the Typewriter reveals prefixes and completes -/

theorem effectiveDelay_pos (d : ℚ) : 0 < effectiveDelay d :=
  lt_of_lt_of_le (by norm_num) (le_max_left (1 / 10) d)

theorem startsWith_self (t : List Char) : startsWithChars t t = true :=
  (startsWithChars_iff t t).2 ⟨t.length, (List.take_length t).symm⟩

theorem resetCheck_pref (t : List Char) (s : TypewriterState) :
    PrefOf (resetCheck t s).displayedText t := by
  unfold resetCheck
  split
  case isTrue h => exact (startsWithChars_iff t s.displayedText).1 h
  case isFalse => exact ⟨0, rfl⟩

theorem resetCheck_acc (t : List Char) (s : TypewriterState) :
    (resetCheck t s).timeAccumulator = s.timeAccumulator := by
  unfold resetCheck
  split <;> rfl

theorem resetCheck_of_pref {t : List Char} {s : TypewriterState}
    (h : PrefOf s.displayedText t) : resetCheck t s = s := by
  unfold resetCheck
  rw [if_pos ((startsWithChars_iff t s.displayedText).2 h)]

theorem resetCheck_idem (t : List Char) (s : TypewriterState) :
    resetCheck t (resetCheck t s) = resetCheck t s :=
  resetCheck_of_pref (resetCheck_pref t s)

theorem componentStep_fixed {t : List Char} {d δ : ℚ} {s : TypewriterState}
    (h : s.displayedText = t) : componentStep t d δ s = s := by
  unfold componentStep
  rw [resetCheck_of_pref (h ▸ prefOf_refl t)]
  simp [h]

theorem componentStep_eq_reset (t : List Char) (d δ : ℚ) (s : TypewriterState) :
    componentStep t d δ s = componentStep t d δ (resetCheck t s) := by
  unfold componentStep
  rw [resetCheck_idem]

theorem frameStep_displayed (t : List Char) (d δ : ℚ) (s : TypewriterState) :
    (frameStep t d δ s).displayedText = s.displayedText ∨
      ∃ n, (frameStep t d δ s).displayedText = t.take n := by
  unfold frameStep
  dsimp only
  split
  · split
    · right; exact ⟨_, rfl⟩
    · left; rfl
  · left; rfl

theorem componentStep_pref (t : List Char) (d δ : ℚ) (s : TypewriterState) :
    PrefOf (componentStep t d δ s).displayedText t := by
  unfold componentStep
  dsimp only
  split
  case isTrue =>
    rcases frameStep_displayed t d δ (resetCheck t s) with h | ⟨n, h⟩
    · rw [h]; exact resetCheck_pref t s
    · exact ⟨n, h⟩
  case isFalse => exact resetCheck_pref t s

/-- One frame from a coherent, unfinished state: either the whole target is
now displayed, or the state stays coherent (ruling out a reset on the next
frame), the carried remainder time is in `[0, effectiveDelay d)`, and the
quantity `revealed * delay + remainder` grows by exactly the frame time. -/
theorem componentStep_step (t : List Char) (d δ : ℚ) (s : TypewriterState)
    (hδ : 0 < δ) (hpre : PrefOf s.displayedText t) (hacc : 0 ≤ s.timeAccumulator)
    (hne : s.displayedText ≠ t) :
    (componentStep t d δ s).displayedText = t ∨
      (PrefOf (componentStep t d δ s).displayedText t ∧
       0 ≤ (componentStep t d δ s).timeAccumulator ∧
       (componentStep t d δ s).timeAccumulator < effectiveDelay d ∧
       (componentStep t d δ s).displayedText ≠ t ∧
       ((componentStep t d δ s).displayedText.length : ℚ) * effectiveDelay d
           + (componentStep t d δ s).timeAccumulator
         = (s.displayedText.length : ℚ) * effectiveDelay d
           + s.timeAccumulator + δ) := by
  have heff : 0 < effectiveDelay d := effectiveDelay_pos d
  have hlen : s.displayedText.length < t.length := by
    rcases lt_or_eq_of_le hpre.length_le with h | h
    · exact h
    · exact absurd (hpre.eq_of_length_le (le_of_eq h.symm)) hne
  have hstep : componentStep t d δ s = frameStep t d δ s := by
    unfold componentStep
    rw [resetCheck_of_pref hpre, if_pos hlen]
  rw [hstep]
  unfold frameStep
  by_cases hcpos : 0 < ⌊(s.timeAccumulator + δ) / effectiveDelay d⌋
  · rw [if_pos hcpos]
    have h1c : 1 ≤ (⌊(s.timeAccumulator + δ) / effectiveDelay d⌋).toNat := by omega
    have hlt : s.displayedText.length <
        min (s.displayedText.length
          + (⌊(s.timeAccumulator + δ) / effectiveDelay d⌋).toNat) t.length := by
      omega
    rw [if_pos hlt]
    have hfl : ((⌊(s.timeAccumulator + δ) / effectiveDelay d⌋ : ℤ) : ℚ)
        ≤ (s.timeAccumulator + δ) / effectiveDelay d :=
      Int.floor_le _
    have hflup : (s.timeAccumulator + δ) / effectiveDelay d
        < (⌊(s.timeAccumulator + δ) / effectiveDelay d⌋ : ℚ) + 1 :=
      Int.lt_floor_add_one _
    have hcle : ((⌊(s.timeAccumulator + δ) / effectiveDelay d⌋ : ℤ) : ℚ)
        * effectiveDelay d ≤ s.timeAccumulator + δ :=
      (le_div_iff₀ heff).1 hfl
    have hclt : s.timeAccumulator + δ
        < (((⌊(s.timeAccumulator + δ) / effectiveDelay d⌋ : ℤ) : ℚ) + 1)
          * effectiveDelay d :=
      (div_lt_iff₀ heff).1 hflup
    rcases le_or_lt t.length
        (s.displayedText.length
          + (⌊(s.timeAccumulator + δ) / effectiveDelay d⌋).toNat) with hcap | hcap
    · left
      dsimp only
      rw [min_eq_right hcap, List.take_length]
    · right
      dsimp only
      rw [min_eq_left hcap.le]
      have hlength : (t.take (s.displayedText.length
          + (⌊(s.timeAccumulator + δ) / effectiveDelay d⌋).toNat)).length
          = s.displayedText.length
            + (⌊(s.timeAccumulator + δ) / effectiveDelay d⌋).toNat := by
        rw [List.length_take]
        omega
      refine ⟨⟨_, rfl⟩, sub_nonneg.2 hcle, ?_, ?_, ?_⟩
      · have : ((⌊(s.timeAccumulator + δ) / effectiveDelay d⌋ : ℤ) : ℚ)
            * effectiveDelay d + effectiveDelay d
            = (((⌊(s.timeAccumulator + δ) / effectiveDelay d⌋ : ℤ) : ℚ) + 1)
              * effectiveDelay d := by ring
        linarith
      · intro heq
        have := congrArg List.length heq
        rw [hlength] at this
        omega
      · rw [hlength]
        have htn : ((⌊(s.timeAccumulator + δ) / effectiveDelay d⌋.toNat : ℕ) : ℚ)
            = ((⌊(s.timeAccumulator + δ) / effectiveDelay d⌋ : ℤ) : ℚ) := by
          exact_mod_cast Int.toNat_of_nonneg hcpos.le
        rw [Nat.cast_add, htn]
        ring
  · rw [if_neg hcpos]
    right
    dsimp only
    have haccb : s.timeAccumulator + δ < effectiveDelay d := by
      have hfl1 : ⌊(s.timeAccumulator + δ) / effectiveDelay d⌋ < 1 := by omega
      have := Int.floor_lt.1 (by exact_mod_cast hfl1 :
        ⌊(s.timeAccumulator + δ) / effectiveDelay d⌋ < (1 : ℤ))
      rw [Int.cast_one] at this
      exact (div_lt_one heff).1 this
    exact ⟨hpre, add_nonneg hacc hδ.le, haccb, hne, by ring⟩

theorem componentStep_normalize (t : List Char) (d δ : ℚ) (s : TypewriterState)
    (hδ : 0 < δ) (hacc : 0 ≤ s.timeAccumulator) :
    (componentStep t d δ s).displayedText = t ∨
      (PrefOf (componentStep t d δ s).displayedText t ∧
       0 ≤ (componentStep t d δ s).timeAccumulator ∧
       (componentStep t d δ s).timeAccumulator < effectiveDelay d ∧
       (componentStep t d δ s).displayedText ≠ t) := by
  rw [componentStep_eq_reset]
  by_cases hne : (resetCheck t s).displayedText = t
  · left
    rw [componentStep_fixed hne]
    exact hne
  · have haccr : 0 ≤ (resetCheck t s).timeAccumulator := by
      rw [resetCheck_acc]
      exact hacc
    rcases componentStep_step t d δ (resetCheck t s) hδ (resetCheck_pref t s)
        haccr hne with h | ⟨h1, h2, h3, h4, _⟩
    · exact Or.inl h
    · exact Or.inr ⟨h1, h2, h3, h4⟩

theorem componentStep_iterate_fixed {t : List Char} {d δ : ℚ} {s : TypewriterState}
    (h : s.displayedText = t) (n : ℕ) :
    ((componentStep t d δ)^[n] s).displayedText = t := by
  rw [Function.iterate_fixed (componentStep_fixed h) n]
  exact h

theorem componentStep_iterate (t : List Char) (d δ : ℚ) (hδ : 0 < δ) :
    ∀ (n : ℕ) (s : TypewriterState),
      PrefOf s.displayedText t → 0 ≤ s.timeAccumulator →
      s.timeAccumulator < effectiveDelay d → s.displayedText ≠ t →
      ((componentStep t d δ)^[n] s).displayedText = t ∨
        (PrefOf ((componentStep t d δ)^[n] s).displayedText t ∧
         0 ≤ ((componentStep t d δ)^[n] s).timeAccumulator ∧
         ((componentStep t d δ)^[n] s).timeAccumulator < effectiveDelay d ∧
         ((componentStep t d δ)^[n] s).displayedText ≠ t ∧
         (((componentStep t d δ)^[n] s).displayedText.length : ℚ) * effectiveDelay d
             + ((componentStep t d δ)^[n] s).timeAccumulator
           = (s.displayedText.length : ℚ) * effectiveDelay d
             + s.timeAccumulator + n * δ) := by
  intro n
  induction n with
  | zero =>
    intro s hpre hacc haccb hne
    right
    simp only [Function.iterate_zero_apply]
    refine ⟨hpre, hacc, haccb, hne, ?_⟩
    push_cast
    ring
  | succ n ih =>
    intro s hpre hacc haccb hne
    rw [Function.iterate_succ_apply']
    rcases ih s hpre hacc haccb hne with hdone | ⟨h1, h2, h3, h4, h5⟩
    · left
      rw [componentStep_fixed hdone]
      exact hdone
    · rcases componentStep_step t d δ _ hδ h1 h2 h4 with hdone | ⟨g1, g2, g3, g4, g5⟩
      · exact Or.inl hdone
      · right
        refine ⟨g1, g2, g3, g4, ?_⟩
        rw [g5, h5]
        push_cast
        ring

/-- C1: after any frame the displayed text is a prefix of the target, and —
the target and per-character delay now fixed — from any state with a
nonnegative time accumulator, any fixed positive frame time δ completes the
reveal: once N * δ covers `t.length` many effective delays, N + 1 frames
display the whole target. -/
theorem C1_typewriter_correct (t : List Char) (d δ : ℚ) (s : TypewriterState)
    (N : ℕ) (hδ : 0 < δ) (hacc : 0 ≤ s.timeAccumulator)
    (hN : (t.length : ℚ) * effectiveDelay d ≤ N * δ) :
    (∀ s' : TypewriterState, PrefOf (componentStep t d δ s').displayedText t) ∧
    ((componentStep t d δ)^[N + 1] s).displayedText = t := by
  refine ⟨fun s' => componentStep_pref t d δ s', ?_⟩
  have heff : 0 < effectiveDelay d := effectiveDelay_pos d
  rw [Function.iterate_succ_apply]
  rcases componentStep_normalize t d δ s hδ hacc with hdone | ⟨h1, h2, h3, h4⟩
  · exact componentStep_iterate_fixed hdone N
  · rcases componentStep_iterate t d δ hδ N (componentStep t d δ s) h1 h2 h3 h4
        with hdone | ⟨g1, g2, g3, g4, g5⟩
    · exact hdone
    · exfalso
      have hlen : ((componentStep t d δ)^[N] (componentStep t d δ s)).displayedText.length
          < t.length := by
        rcases lt_or_eq_of_le g1.length_le with h | h
        · exact h
        · exact absurd (g1.eq_of_length_le (le_of_eq h.symm)) g4
      have hub : ((((componentStep t d δ)^[N]
            (componentStep t d δ s)).displayedText.length + 1 : ℕ) : ℚ)
          ≤ (t.length : ℚ) := by
        exact_mod_cast hlen
      push_cast at hub
      have hmul : ((((componentStep t d δ)^[N]
            (componentStep t d δ s)).displayedText.length : ℚ) + 1) * effectiveDelay d
          ≤ (t.length : ℚ) * effectiveDelay d :=
        mul_le_mul_of_nonneg_right hub heff.le
      have hphi0 : 0 ≤ ((componentStep t d δ s).displayedText.length : ℚ)
          * effectiveDelay d + (componentStep t d δ s).timeAccumulator := by
        have : (0 : ℚ) ≤ ((componentStep t d δ s).displayedText.length : ℚ) :=
          Nat.cast_nonneg _
        nlinarith
      nlinarith [g5, g3, g2, hN, hmul, hphi0]

/-- C1 witness: target "hi", 20 ms per character, 20 ms frames — after the
bound of 2 + 1 frames the full target is displayed, and one frame from the
initial state shows a prefix. -/
theorem C1_typewriter_correct_witness :
    (0 : ℚ) < 20 ∧ (0 : ℚ) ≤ (0 : ℚ) ∧
    ((((['h', 'i'] : List Char).length : ℚ) * effectiveDelay 20 ≤ ((2 : ℕ) : ℚ) * 20)) ∧
    PrefOf (componentStep ['h', 'i'] 20 20 (TypewriterState.mk [] 0)).displayedText
      ['h', 'i'] ∧
    ((componentStep ['h', 'i'] 20 20)^[2 + 1]
        (TypewriterState.mk [] 0)).displayedText = ['h', 'i'] := by
  refine ⟨by norm_num, le_refl 0, by norm_num [effectiveDelay], ?_, ?_⟩
  · exact (C1_typewriter_correct ['h', 'i'] 20 20 (TypewriterState.mk [] 0) 2
      (by norm_num) (le_refl 0) (by norm_num [effectiveDelay])).1
      (TypewriterState.mk [] 0)
  · exact (C1_typewriter_correct ['h', 'i'] 20 20 (TypewriterState.mk [] 0) 2
      (by norm_num) (le_refl 0) (by norm_num [effectiveDelay])).2
